import Mathlib

/-!
Verification development for `minrpn.cpp`: a best-first search that finds a
minimal-term arithmetic expression (over seeds 69 and 420 and the four binary
operators) evaluating to a fixed goal value.

The C++ program is shallowly embedded here:
* `arith_t` (C `long`) is modelled as `Int` (all values the search admits are
  bounded by `max_relevant`, far inside the 64-bit range, so exact integer
  arithmetic is the faithful semantics);
* the two `std::unordered_map`s are modelled as association lists with unique
  keys (iteration order of an unordered map is unspecified; the claims proved
  below are insensitive to that order);
* C `assert` failures and the `.at` out-of-range throw are modelled as
  `Except.error`;
* the two unbounded loops (`recache` and the driver loop) take explicit fuel;
  `recache`'s fuel is chosen so that fuel exhaustion coincides with states
  where the C assertion `min_nterms <= goal_seen_n_terms` would have fired.
-/

/-- Errors of the embedded program: the distinguished empty-frontier assertion
at the top of `pop_into`, and every other `assert` / `.at` failure. -/
inductive Err where
  | emptyFrontier : Err
  | assertFail : Err
deriving DecidableEq, Repr

/-- The operator tags of `enum arith_op` (the stored character is irrelevant to
the semantics; `opChar` below recovers it for rendering). -/
inductive arith_op where
  | OP_PLUS : arith_op
  | OP_MINUS : arith_op
  | OP_DIV : arith_op
  | OP_MULT : arith_op
  | OP_NONE : arith_op
deriving DecidableEq, Repr

/-- `struct expr_node`: a node of the expression search, recording the two
operand values, the term count used as cost, and the operator. -/
structure expr_node where
  val_left : Int
  val_right : Int
  n_terms : Nat
  op : arith_op
deriving DecidableEq, Repr

/-- `static const arith_t max_relevant = 420 * 3000`. -/
def max_relevant : Int := 420 * 3000

/-- `static const arith_t goal = 2017`. -/
def goal : Int := 2017

/-- Initial value of `goal_seen_n_terms`: `goal + 10`. -/
def init_goal_seen : Nat := 2017 + 10

/-- Association-list lookup, modelling `unordered_map::find`. -/
def alookup (v : Int) : List (Int × expr_node) → Option expr_node
  | [] => none
  | e :: t => if e.1 = v then some e.2 else alookup v t

/-- Replace the (first) entry for key `v`, modelling `backing_it->second = node`. -/
def areplace (v : Int) (nd : expr_node) : List (Int × expr_node) → List (Int × expr_node)
  | [] => []
  | e :: t => if e.1 = v then (v, nd) :: t else e :: areplace v nd t

/-- Erase the (first) entry for key `v`, modelling `unordered_map::erase`. -/
def aerase (v : Int) : List (Int × expr_node) → List (Int × expr_node)
  | [] => []
  | e :: t => if e.1 = v then t else e :: aerase v t

/-- `class list_open_t`: the frontier.  `min_nterms_cached` is the stack of
keys at the current minimum level (head = top of the `std::stack`),
`min_nterms` the current level, `backing` the value-to-node map. -/
structure list_open_t where
  min_nterms_cached : List Int
  min_nterms : Nat
  backing : List (Int × expr_node)
deriving DecidableEq, Repr

/-- Does an entry sit exactly at level `m` (the first branch of the loop body
of `step_recache`)? -/
def atLevel (m : Nat) (e : Int × expr_node) : Bool :=
  decide (e.2.n_terms = m)

/-- Is an entry kept by `step_recache`'s erasure pass?  Erased are exactly the
entries not at the new level whose cost has reached `goal_seen_n_terms` and
whose value is not the goal. -/
def keepEntry (gsn m : Nat) (e : Int × expr_node) : Bool :=
  !(decide (e.2.n_terms ≠ m) && decide (gsn ≤ e.2.n_terms) && decide (e.1 ≠ goal))

/-- `list_open_t::step_recache`: advance to the next level, cache every key
whose entry sits exactly at that level (pushed in iteration order, so the list
of cached keys is reversed relative to `backing`), and erase entries that can
no longer beat `goal_seen_n_terms` (the goal's own entry is kept).  The two C
assertions (`min_nterms <= goal_seen_n_terms` and `entry.second.n_terms >=
min_nterms`) become the guard. -/
def step_recache (gsn : Nat) (s : list_open_t) : Except Err list_open_t :=
  let m := s.min_nterms + 1
  if m ≤ gsn ∧ ∀ e ∈ s.backing, m ≤ e.2.n_terms then
    .ok { min_nterms_cached :=
            (((s.backing.filter (atLevel m)).map Prod.fst).reverse) ++ s.min_nterms_cached,
          min_nterms := m,
          backing := s.backing.filter (keepEntry gsn m) }
  else .error .assertFail

/-- The loop body of `list_open_t::recache`, with explicit fuel.  Fuel
`gsn + 1` always suffices: each step increments `min_nterms`, and a step with
`min_nterms + 1 > gsn` already fails the assertion. -/
def recache_go : Nat → Nat → list_open_t → Except Err list_open_t
  | 0, _, _ => .error .assertFail
  | fuel + 1, gsn, s =>
    match step_recache gsn s with
    | .error e => .error e
    | .ok s' => if s'.min_nterms_cached.length ≠ 0 then .ok s' else recache_go fuel gsn s'

/-- `list_open_t::recache`: asserts a nonempty backing and an empty cache,
then steps levels until the cache is nonempty. -/
def recache (gsn : Nat) (s : list_open_t) : Except Err list_open_t :=
  if s.backing.length ≠ 0 ∧ s.min_nterms_cached.length = 0 then
    recache_go (gsn + 1) gsn s
  else .error .assertFail

/-- The update `push` performs on the backing map: insert when absent,
replace when strictly better, otherwise leave unchanged. -/
def push_backing (val : Int) (nd : expr_node) (l : List (Int × expr_node)) :
    List (Int × expr_node) :=
  match alookup val l with
  | none => l ++ [(val, nd)]
  | some old => if nd.n_terms < old.n_terms then areplace val nd l else l

/-- `list_open_t::push`: insert, improve strictly, or silently discard.  The
two C assertions become the guard. -/
def push (val : Int) (nd : expr_node) (s : list_open_t) : Except Err list_open_t :=
  if 1 ≤ nd.n_terms ∧ s.min_nterms < nd.n_terms then
    .ok { s with backing := push_backing val nd s.backing }
  else .error .assertFail

/-- `list_open_t::pop_into`: remove and return some node of minimal
`n_terms`.  An empty frontier fails with the distinguished empty-frontier
assertion; the cache is refilled by `recache` when exhausted. -/
def pop_into (gsn : Nat) (s : list_open_t) : Except Err (Int × expr_node × list_open_t) :=
  if s.backing.length = 0 then .error .emptyFrontier
  else
    match (if s.min_nterms_cached.length = 0 then recache gsn s else .ok s) with
    | .error e => .error e
    | .ok s1 =>
      match s1.min_nterms_cached with
      | [] => .error .assertFail
      | v :: rest =>
        match alookup v s1.backing with
        | none => .error .assertFail
        | some nd => .ok (v, nd, { s1 with min_nterms_cached := rest, backing := aerase v s1.backing })

/-- The program's global search state: `list_closed`, `list_open`,
`goal_seen_n_terms`, plus the log of reported goal discoveries (the costs
printed by the `One way (...) = ...` lines in `discover`). -/
structure SState where
  list_closed : List (Int × expr_node)
  list_open : list_open_t
  goal_seen_n_terms : Nat
  reports : List Nat
deriving DecidableEq, Repr

/-- `lookup_best_known`: closed list first, else the open list's `.at`
(whose out-of-range throw is `none` here). -/
def lookup_best_known (st : SState) (val : Int) : Option expr_node :=
  match alookup val st.list_closed with
  | some nd => some nd
  | none => alookup val st.list_open.backing

/-- `discover`: the admission filter in front of the frontier, plus the
goal-discovery event (update `goal_seen_n_terms`, report). -/
def discover (val : Int) (nd : expr_node) (st : SState) : Except Err SState :=
  if alookup val st.list_closed ≠ none then .ok st
  else if max_relevant ≤ |val| then .ok st
  else if st.goal_seen_n_terms ≤ nd.n_terms then .ok st
  else
    match push val nd st.list_open with
    | .error e => .error e
    | .ok opn' =>
      if val = goal then
        .ok { st with list_open := opn', goal_seen_n_terms := nd.n_terms,
                      reports := st.reports ++ [nd.n_terms] }
      else .ok { st with list_open := opn' }

/-- `generate_against`: offer the pairwise combinations of a just-closed node
`a` and a closed peer `b` to `discover`, in source order (quotient, difference,
product, sum; then, when the values differ, the two reversed non-commutative
forms).  C truncated division and remainder are `Int.tdiv` / `Int.tmod`. -/
def generate_against (a_val : Int) (a : expr_node) (b_val : Int) (b : expr_node)
    (st : SState) : Except Err SState :=
  let n := a.n_terms + b.n_terms
  if 2 ≤ n then
    (if b_val ≠ 0 ∧ Int.tmod a_val b_val = 0 then
        discover (Int.tdiv a_val b_val) ⟨a_val, b_val, n, .OP_DIV⟩ st
      else .ok st) >>= fun st =>
    discover (a_val - b_val) ⟨a_val, b_val, n, .OP_MINUS⟩ st >>= fun st =>
    discover (a_val * b_val) ⟨a_val, b_val, n, .OP_MULT⟩ st >>= fun st =>
    discover (a_val + b_val) ⟨a_val, b_val, n, .OP_PLUS⟩ st >>= fun st =>
    (if b_val ≠ a_val then
        (if a_val ≠ 0 ∧ Int.tmod b_val a_val = 0 then
            discover (Int.tdiv b_val a_val) ⟨b_val, a_val, n, .OP_DIV⟩ st
          else .ok st) >>= fun st =>
        discover (b_val - a_val) ⟨b_val, a_val, n, .OP_MINUS⟩ st
      else .ok st)
  else .error .assertFail

/-- The explicit list of candidates `generate_against` offers to `discover`,
written out literally: quotient (when the divisor is nonzero and divides
exactly), difference, product and sum with operands `(a_val, b_val)`, and,
when the two values differ, the reversed quotient and difference with operands
`(b_val, a_val)` — never a reversed sum or product.  Every candidate carries
cost `a.n_terms + b.n_terms`. -/
def candidates (a_val : Int) (a : expr_node) (b_val : Int) (b : expr_node) :
    List (Int × expr_node) :=
  let n := a.n_terms + b.n_terms
  (if b_val ≠ 0 ∧ Int.tmod a_val b_val = 0 then
      [(Int.tdiv a_val b_val, ⟨a_val, b_val, n, .OP_DIV⟩)]
    else [])
  ++ [(a_val - b_val, ⟨a_val, b_val, n, .OP_MINUS⟩),
      (a_val * b_val, ⟨a_val, b_val, n, .OP_MULT⟩),
      (a_val + b_val, ⟨a_val, b_val, n, .OP_PLUS⟩)]
  ++ (if b_val ≠ a_val then
        (if a_val ≠ 0 ∧ Int.tmod b_val a_val = 0 then
            [(Int.tdiv b_val a_val, ⟨b_val, a_val, n, .OP_DIV⟩)]
          else [])
        ++ [(b_val - a_val, ⟨b_val, a_val, n, .OP_MINUS⟩)]
      else [])

/-- Offer a list of candidates to `discover` in order. -/
def discover_list : List (Int × expr_node) → SState → Except Err SState
  | [], st => .ok st
  | c :: cs, st =>
    match discover c.1 c.2 st with
    | .error e => .error e
    | .ok st' => discover_list cs st'

/-- The `for (peer_kv : list_closed)` loop of `main`. -/
def genAll (a_val : Int) (a : expr_node) : List (Int × expr_node) → SState → Except Err SState
  | [], st => .ok st
  | p :: ps, st =>
    match generate_against a_val a p.1 p.2 st with
    | .error e => .error e
    | .ok st' => genAll a_val a ps st'

/-- `list_closed.emplace(val, node)`: inserts only when the key is absent. -/
def emplace (val : Int) (nd : expr_node) (l : List (Int × expr_node)) : List (Int × expr_node) :=
  if alookup val l = none then l ++ [(val, nd)] else l

/-- Result of one execution of the driver loop's body. -/
inductive IterRes where
  | empty : IterRes
  | step : SState → expr_node → IterRes
deriving DecidableEq, Repr

/-- One body of the `do`-loop in `main`: the emptiness check, `pop_into`,
`emplace` into the closed list, the `assert(val != goal)`, and the expansion
against every closed peer. -/
def loop_iter (st : SState) : Except Err IterRes :=
  if st.list_open.backing.length = 0 then .ok .empty
  else
    match pop_into st.goal_seen_n_terms st.list_open with
    | .error e => .error e
    | .ok (val, nd, opn') =>
      let closed' := emplace val nd st.list_closed
      let st' : SState := { st with list_open := opn', list_closed := closed' }
      if val = goal then .error .assertFail
      else
        match genAll val nd closed' st' with
        | .error e => .error e
        | .ok st'' => .ok (.step st'' nd)

/-- Outcome of running the driver loop with fuel. -/
inductive RunRes where
  | outOfFuel : RunRes
  | aborted : Err → RunRes
  | exhausted : SState → RunRes
  | finished : SState → expr_node → RunRes
deriving DecidableEq, Repr

/-- The `do { ... } while (goal_seen_n_terms > node.n_terms + 1)` loop of
`main`, with explicit fuel. -/
def run_loop : Nat → SState → RunRes
  | 0, _ => .outOfFuel
  | fuel + 1, st =>
    match loop_iter st with
    | .error e => .aborted e
    | .ok .empty => .exhausted st
    | .ok (.step st' nd) =>
      if st'.goal_seen_n_terms > nd.n_terms + 1 then run_loop fuel st' else .finished st' nd

/-- Fully parenthesized expression trees, exactly the shape `print_expr`
prints. -/
inductive aexp where
  | lit : Int → aexp
  | bin : arith_op → aexp → aexp → aexp
deriving DecidableEq, Repr

/-- The character `print_expr` prints for an operator (the enum's value). -/
def opChar : arith_op → String
  | .OP_PLUS => "+"
  | .OP_MINUS => "-"
  | .OP_DIV => "/"
  | .OP_MULT => "*"
  | .OP_NONE => "="

/-- Exact integer semantics of one operator application; division is C
truncated division (the program only ever records exact quotients). -/
def eval_op (op : arith_op) (l r : Int) : Int :=
  match op with
  | .OP_PLUS => l + r
  | .OP_MINUS => l - r
  | .OP_DIV => Int.tdiv l r
  | .OP_MULT => l * r
  | .OP_NONE => l

/-- Evaluate a rendered expression under exact integer arithmetic. -/
def aexp.eval : aexp → Int
  | .lit v => v
  | .bin op l r => eval_op op (aexp.eval l) (aexp.eval r)

/-- The string `print_expr` produces for a tree: literals print their value,
composites print `(left OP right)`. -/
def aexp.print : aexp → String
  | .lit v => toString v
  | .bin op l r => "(" ++ aexp.print l ++ opChar op ++ aexp.print r ++ ")"

/-- The recursion of `print_expr`, building the printed tree; `fuel` bounds
the recursion depth (the C function recurses unboundedly; under the search
invariant a node's `n_terms` bounds its depth, see the soundness lemma below).
A failed `lookup_best_known` is the C `.at` throw. -/
def render_tree (st : SState) : Nat → Int → Option aexp
  | 0, _ => none
  | fuel + 1, v =>
    match lookup_best_known st v with
    | none => none
    | some nd =>
      if nd.op = .OP_NONE then some (.lit v)
      else
        match render_tree st fuel nd.val_left, render_tree st fuel nd.val_right with
        | some l, some r => some (.bin nd.op l r)
        | _, _ => none

/-- `print_expr` as a string producer. -/
def print_expr (st : SState) (fuel : Nat) (v : Int) : Option String :=
  (render_tree st fuel v).map aexp.print

/-- Result of `main`: fuel exhaustion of the model, a crash (failed C assert
or uncaught exception), or normal termination with an exit code, whether the
can't-be-reached message was printed, and the final printed expression. -/
inductive MainRes where
  | outOfFuel : MainRes
  | crashed : MainRes
  | done : Nat → Bool → Option aexp → MainRes
deriving DecidableEq, Repr

/-- `main` from an arbitrary starting state: run the loop; an emptied frontier
prints the failure message and returns 1; otherwise print the goal expression
and return 0 (fuel `goal_seen_n_terms + 1` suffices for the final
`print_expr(goal)` under the search invariant). -/
def main_run (st0 : SState) (fuel : Nat) : MainRes :=
  match run_loop fuel st0 with
  | .outOfFuel => .outOfFuel
  | .aborted _ => .crashed
  | .exhausted _ => .done 1 true none
  | .finished st _ =>
    match render_tree st (st.goal_seen_n_terms + 1) goal with
    | some t => .done 0 false (some t)
    | none => .crashed

/-- The empty global state before `main` provides the seeds. -/
def init_sstate0 : SState :=
  { list_closed := [], list_open := ⟨[], 0, []⟩, goal_seen_n_terms := init_goal_seen,
    reports := [] }

/-- `provide(d)`: push a seed node of cost 1. -/
def provide (d : Int) (st : SState) : Except Err SState :=
  match push d ⟨d, d, 1, .OP_NONE⟩ st.list_open with
  | .error e => .error e
  | .ok o => .ok { st with list_open := o }

/-- The seed phase of `main`: `provide(69); provide(420);` and the
`assert(list_open.size() > 0)`. -/
def init? : Except Err SState :=
  match provide 69 init_sstate0 with
  | .error e => .error e
  | .ok st1 =>
    match provide 420 st1 with
    | .error e => .error e
    | .ok st2 => if st2.list_open.backing.length ≠ 0 then .ok st2 else .error .assertFail

/-- The state `main` starts its loop from. -/
def init_state : SState :=
  { list_closed := [],
    list_open := ⟨[], 0, [(69, ⟨69, 69, 1, .OP_NONE⟩), (420, ⟨420, 420, 1, .OP_NONE⟩)]⟩,
    goal_seen_n_terms := init_goal_seen,
    reports := [] }

/-- States reachable by the driver: the seeded initial state, closed under
loop bodies (a superset of the states an actual run visits, since the loop
condition is ignored). -/
inductive Reachable : SState → Prop where
  | init : ∀ st, init? = .ok st → Reachable st
  | step : ∀ st st' nd, Reachable st → loop_iter st = .ok (.step st' nd) → Reachable st'

/-- Internal invariant of the frontier: every entry sits at or above the
current level, every cached key maps to an entry exactly at the current level,
and keys and cache are duplicate-free. -/
abbrev OpenInv (s : list_open_t) : Prop :=
  (∀ e ∈ s.backing, s.min_nterms ≤ e.2.n_terms) ∧
  (∀ v ∈ s.min_nterms_cached, (alookup v s.backing).map expr_node.n_terms = some s.min_nterms) ∧
  (s.backing.map Prod.fst).Nodup ∧
  s.min_nterms_cached.Nodup

/-- Soundness of one recorded node with respect to a closed list: positive
cost; a seed node records its own value as both operands; a composite node's
operands both have closed entries whose costs sum to the node's cost, the
node's value is the exact result of its operation, and a quotient node divides
exactly. -/
abbrev node_ok (closed : List (Int × expr_node)) (v : Int) (nd : expr_node) : Prop :=
  1 ≤ nd.n_terms ∧
  (nd.op = .OP_NONE → nd.val_left = v ∧ nd.val_right = v) ∧
  (nd.op ≠ .OP_NONE →
    Option.map₂ (· + ·) ((alookup nd.val_left closed).map expr_node.n_terms)
        ((alookup nd.val_right closed).map expr_node.n_terms) = some nd.n_terms ∧
    v = eval_op nd.op nd.val_left nd.val_right ∧
    (nd.op = .OP_DIV → nd.val_right ≠ 0 ∧ Int.tmod nd.val_left nd.val_right = 0))

/-- Global search invariant: the frontier is internally consistent, the closed
list has unique keys, every recorded node (closed or open) is sound with
respect to the closed list, and the closed and open key sets are disjoint. -/
abbrev SInv (st : SState) : Prop :=
  OpenInv st.list_open ∧
  (st.list_closed.map Prod.fst).Nodup ∧
  (∀ e ∈ st.list_closed, node_ok st.list_closed e.1 e.2) ∧
  (∀ e ∈ st.list_open.backing, node_ok st.list_closed e.1 e.2) ∧
  (∀ e ∈ st.list_closed, e.1 ∉ st.list_open.backing.map Prod.fst)

/-- One frontier operation, for stating trace properties of a run's `push` /
`pop_into` calls (`gsn` is the value of the global `goal_seen_n_terms` at the
time of the call). -/
inductive FOp where
  | fpush : Int → expr_node → FOp
  | fpop : Nat → FOp
deriving DecidableEq, Repr

/-- Run a sequence of frontier operations, collecting the `n_terms` of every
node returned by a `pop_into` call, in order. -/
def runF : List FOp → list_open_t → Except Err (list_open_t × List Nat)
  | [], s => .ok (s, [])
  | .fpush v nd :: ops, s =>
    match push v nd s with
    | .error e => .error e
    | .ok s' => runF ops s'
  | .fpop gsn :: ops, s =>
    match pop_into gsn s with
    | .error e => .error e
    | .ok (_, nd, s') =>
      match runF ops s' with
      | .error e => .error e
      | .ok (s'', tr) => .ok (s'', nd.n_terms :: tr)

@[simp] theorem alookup_nil (v : Int) : alookup v [] = none := rfl

theorem alookup_cons (v : Int) (e : Int × expr_node) (t : List (Int × expr_node)) :
    alookup v (e :: t) = if e.1 = v then some e.2 else alookup v t := rfl

theorem alookup_eq_none {v : Int} : ∀ {l : List (Int × expr_node)},
    alookup v l = none ↔ v ∉ l.map Prod.fst := by
  intro l
  induction l with
  | nil => simp
  | cons e t ih =>
    simp only [alookup_cons, List.map_cons, List.mem_cons]
    split
    · simp_all
    · simp_all [eq_comm]

theorem alookup_mem {v : Int} {nd : expr_node} : ∀ {l : List (Int × expr_node)},
    alookup v l = some nd → (v, nd) ∈ l := by
  intro l
  induction l with
  | nil => simp
  | cons e t ih =>
    simp only [alookup_cons, List.mem_cons]
    split
    · rename_i h
      intro hs
      left
      cases e
      simp_all
    · intro hs
      exact Or.inr (ih hs)

theorem mem_alookup {v : Int} {nd : expr_node} : ∀ {l : List (Int × expr_node)},
    (l.map Prod.fst).Nodup → (v, nd) ∈ l → alookup v l = some nd := by
  intro l
  induction l with
  | nil => simp
  | cons e t ih =>
    intro hnd hmem
    simp only [List.map_cons, List.nodup_cons] at hnd
    rcases List.mem_cons.mp hmem with h | h
    · subst h
      simp [alookup_cons]
    · have hne : e.1 ≠ v := by
        intro he
        exact hnd.1 (he ▸ List.mem_map_of_mem Prod.fst h)
      simp only [alookup_cons, if_neg hne]
      exact ih hnd.2 h

theorem alookup_append_some {v : Int} {nd : expr_node} {l l' : List (Int × expr_node)}
    (h : alookup v l = some nd) : alookup v (l ++ l') = some nd := by
  induction l with
  | nil => simp at h
  | cons e t ih =>
    simp only [alookup_cons] at h ⊢
    split at h
    · simp_all [alookup_cons]
    · rename_i hne
      rw [List.cons_append, alookup_cons, if_neg hne]
      exact ih h

theorem alookup_append_none {v : Int} {l l' : List (Int × expr_node)}
    (h : alookup v l = none) : alookup v (l ++ l') = alookup v l' := by
  induction l with
  | nil => simp
  | cons e t ih =>
    simp only [alookup_cons] at h ⊢
    split at h
    · simp at h
    · rename_i hne
      rw [List.cons_append, alookup_cons, if_neg hne]
      exact ih h

theorem alookup_areplace_self {v : Int} (nd : expr_node) : ∀ {l : List (Int × expr_node)},
    v ∈ l.map Prod.fst → alookup v (areplace v nd l) = some nd := by
  intro l
  induction l with
  | nil => simp
  | cons e t ih =>
    intro hmem
    simp only [areplace]
    split
    · simp [alookup_cons]
    · rename_i hne
      simp only [alookup_cons, if_neg hne]
      apply ih
      simp only [List.map_cons, List.mem_cons] at hmem
      rcases hmem with h | h
      · exact absurd h.symm hne
      · exact h

theorem alookup_areplace_ne {w v : Int} (nd : expr_node) (hne : w ≠ v) :
    ∀ {l : List (Int × expr_node)}, alookup w (areplace v nd l) = alookup w l := by
  intro l
  induction l with
  | nil => rfl
  | cons e t ih =>
    simp only [areplace]
    split
    · rename_i hv
      simp only [alookup_cons, hv]
      rw [if_neg (fun h => hne h.symm), if_neg (fun h => hne h.symm)]
    · simp only [alookup_cons, ih]

theorem areplace_map_fst (v : Int) (nd : expr_node) : ∀ (l : List (Int × expr_node)),
    (areplace v nd l).map Prod.fst = l.map Prod.fst := by
  intro l
  induction l with
  | nil => rfl
  | cons e t ih =>
    simp only [areplace]
    split
    · rename_i hv
      simp [hv]
    · simp [ih]

theorem areplace_mem {v : Int} {nd : expr_node} {e : Int × expr_node} :
    ∀ {l : List (Int × expr_node)}, e ∈ areplace v nd l → e = (v, nd) ∨ e ∈ l := by
  intro l
  induction l with
  | nil => simp [areplace]
  | cons a t ih =>
    simp only [areplace]
    split
    · intro h
      rcases List.mem_cons.mp h with h | h
      · exact Or.inl h
      · exact Or.inr (List.mem_cons_of_mem _ h)
    · intro h
      rcases List.mem_cons.mp h with h | h
      · exact Or.inr (h ▸ List.mem_cons_self _ _)
      · rcases ih h with h' | h'
        · exact Or.inl h'
        · exact Or.inr (List.mem_cons_of_mem _ h')

theorem aerase_sublist (v : Int) : ∀ (l : List (Int × expr_node)), (aerase v l).Sublist l := by
  intro l
  induction l with
  | nil => simp [aerase]
  | cons e t ih =>
    simp only [aerase]
    split
    · exact (List.sublist_cons_self e t)
    · exact List.Sublist.cons₂ e ih

theorem alookup_aerase_ne {w v : Int} (hne : w ≠ v) :
    ∀ {l : List (Int × expr_node)}, alookup w (aerase v l) = alookup w l := by
  intro l
  induction l with
  | nil => rfl
  | cons e t ih =>
    simp only [aerase]
    split
    · rename_i hv
      rw [alookup_cons, if_neg]
      rw [hv]
      exact fun h => hne h.symm
    · simp only [alookup_cons, ih]

theorem aerase_not_mem {v : Int} : ∀ {l : List (Int × expr_node)},
    (l.map Prod.fst).Nodup → v ∉ (aerase v l).map Prod.fst := by
  intro l
  induction l with
  | nil => simp [aerase]
  | cons e t ih =>
    intro hnd
    simp only [List.map_cons, List.nodup_cons] at hnd
    simp only [aerase]
    split
    · rename_i hv
      rw [← hv]
      exact hnd.1
    · rename_i hv
      simp only [List.map_cons, List.mem_cons]
      rintro (h | h)
      · exact hv h.symm
      · exact ih hnd.2 h

theorem aerase_length {v : Int} : ∀ {l : List (Int × expr_node)},
    v ∈ l.map Prod.fst → (aerase v l).length + 1 = l.length := by
  intro l
  induction l with
  | nil => simp
  | cons e t ih =>
    intro hmem
    simp only [aerase]
    split
    · simp
    · rename_i hv
      simp only [List.map_cons, List.mem_cons] at hmem
      rcases hmem with h | h
      · exact absurd h.symm hv
      · simp only [List.length_cons, ih h]


theorem alookup_append_single_ne {w val : Int} (nd : expr_node) (hne : w ≠ val)
    (l : List (Int × expr_node)) : alookup w (l ++ [(val, nd)]) = alookup w l := by
  rcases hl : alookup w l with _ | x
  · rw [alookup_append_none hl, alookup_cons, if_neg (fun h : val = w => hne h.symm)]
    rfl
  · exact alookup_append_some hl

theorem push_backing_none {val : Int} {nd : expr_node} {l : List (Int × expr_node)}
    (hl : alookup val l = none) : push_backing val nd l = l ++ [(val, nd)] := by
  simp [push_backing, hl]

theorem push_backing_improve {val : Int} {nd old : expr_node} {l : List (Int × expr_node)}
    (hl : alookup val l = some old) (h : nd.n_terms < old.n_terms) :
    push_backing val nd l = areplace val nd l := by
  simp [push_backing, hl, h]

theorem push_backing_keep {val : Int} {nd old : expr_node} {l : List (Int × expr_node)}
    (hl : alookup val l = some old) (h : ¬nd.n_terms < old.n_terms) :
    push_backing val nd l = l := by
  simp [push_backing, hl, h]

theorem push_eq_ok {s s' : list_open_t} {val : Int} {nd : expr_node}
    (h : push val nd s = .ok s') :
    1 ≤ nd.n_terms ∧ s.min_nterms < nd.n_terms ∧
      s' = { s with backing := push_backing val nd s.backing } := by
  rw [push] at h
  split at h
  case isTrue hpre =>
    refine ⟨hpre.1, hpre.2, ?_⟩
    cases h
    rfl
  case isFalse => exact absurd h (by simp)

theorem push_ok {s s' : list_open_t} {val : Int} {nd : expr_node}
    (hI : OpenInv s) (h : push val nd s = .ok s') :
    OpenInv s' ∧ s'.min_nterms = s.min_nterms ∧
      s'.min_nterms_cached = s.min_nterms_cached ∧
      (∀ e ∈ s'.backing, e = (val, nd) ∨ e ∈ s.backing) ∧
      (∀ w, w ≠ val → alookup w s'.backing = alookup w s.backing) := by
  obtain ⟨h1, h2, hs'⟩ := push_eq_ok h
  obtain ⟨hI1, hI2, hI3, hI4⟩ := hI
  subst hs'
  rcases hl : alookup val s.backing with _ | old
  · rw [push_backing_none hl]
    have hvn : val ∉ s.backing.map Prod.fst := alookup_eq_none.mp hl
    refine ⟨⟨?_, ?_, ?_, hI4⟩, rfl, rfl, ?_, ?_⟩
    · intro e he
      rcases List.mem_append.mp he with he | he
      · exact hI1 e he
      · simp only [List.mem_singleton] at he
        subst he
        exact Nat.le_of_lt h2
    · intro w hw
      have hw' := hI2 w hw
      rcases hws : alookup w s.backing with _ | x
      · rw [hws] at hw'
        simp at hw'
      · rw [hws] at hw'
        rw [alookup_append_some hws]
        exact hw'
    · simp only [List.map_append, List.map_cons, List.map_nil]
      rw [List.nodup_append]
      exact ⟨hI3, List.nodup_singleton val, by simpa using hvn⟩
    · intro e he
      rcases List.mem_append.mp he with he | he
      · exact Or.inr he
      · simp only [List.mem_singleton] at he
        exact Or.inl he
    · intro w hw
      exact alookup_append_single_ne nd hw s.backing
  · by_cases himp : nd.n_terms < old.n_terms
    · rw [push_backing_improve hl himp]
      refine ⟨⟨?_, ?_, ?_, hI4⟩, rfl, rfl, ?_, ?_⟩
      · intro e he
        rcases areplace_mem he with he | he
        · subst he
          exact Nat.le_of_lt h2
        · exact hI1 e he
      · intro w hw
        have hw' := hI2 w hw
        have hwval : w ≠ val := by
          intro hwv
          subst hwv
          rw [hl] at hw'
          simp only [Option.map_some'] at hw'
          have hoe : old.n_terms = s.min_nterms := by injection hw'
          omega
        rw [alookup_areplace_ne nd hwval]
        exact hw'
      · rw [areplace_map_fst]
        exact hI3
      · intro e he
        exact areplace_mem he
      · intro w hw
        exact alookup_areplace_ne nd hw
    · rw [push_backing_keep hl himp]
      exact ⟨⟨hI1, hI2, hI3, hI4⟩, rfl, rfl, fun e he => Or.inr he, fun w _ => rfl⟩

theorem keepEntry_of_atLevel {gsn m : Nat} {e : Int × expr_node}
    (h : e.2.n_terms = m) : keepEntry gsn m e = true := by
  simp [keepEntry, h]

theorem step_recache_ok {gsn : Nat} {s s' : list_open_t}
    (h : step_recache gsn s = .ok s') (hcache : s.min_nterms_cached = [])
    (hnodup : (s.backing.map Prod.fst).Nodup) :
    s'.min_nterms = s.min_nterms + 1 ∧ s'.backing.Sublist s.backing ∧
      (∀ e ∈ s'.backing, s'.min_nterms ≤ e.2.n_terms) ∧
      (∀ v ∈ s'.min_nterms_cached,
        (alookup v s'.backing).map expr_node.n_terms = some s'.min_nterms) ∧
      (s'.backing.map Prod.fst).Nodup ∧ s'.min_nterms_cached.Nodup ∧
      s'.min_nterms ≤ gsn := by
  rw [step_recache] at h
  split at h
  case isFalse => exact absurd h (by simp)
  case isTrue hpre =>
    simp only [Except.ok.injEq] at h
    subst h
    have hsub : (s.backing.filter (keepEntry gsn (s.min_nterms + 1))).Sublist s.backing :=
      List.filter_sublist _
    have hnodup' : ((s.backing.filter (keepEntry gsn (s.min_nterms + 1))).map Prod.fst).Nodup :=
      List.Nodup.sublist (hsub.map Prod.fst) hnodup
    refine ⟨rfl, hsub, ?_, ?_, hnodup', ?_, hpre.1⟩
    · intro e he
      exact hpre.2 e (hsub.subset he)
    · intro v hv
      simp only [hcache, List.append_nil, List.mem_reverse, List.mem_map] at hv
      obtain ⟨⟨w, x⟩, he, hev⟩ := hv
      rw [List.mem_filter] at he
      have heq : x.n_terms = s.min_nterms + 1 := by
        have h2 := he.2
        simpa [atLevel] using h2
      have hkeep : (w, x) ∈ s.backing.filter (keepEntry gsn (s.min_nterms + 1)) := by
        rw [List.mem_filter]
        exact ⟨he.1, keepEntry_of_atLevel heq⟩
      have hlook := mem_alookup hnodup' hkeep
      simp only at hev
      subst hev
      rw [hlook, Option.map_some', heq]
    · simp only [hcache, List.append_nil]
      exact List.nodup_reverse.mpr
        (List.Nodup.sublist ((List.filter_sublist _).map Prod.fst) hnodup)

theorem recache_go_ok : ∀ (fuel gsn : Nat) (s s' : list_open_t),
    recache_go fuel gsn s = .ok s' → s.min_nterms_cached = [] →
    (s.backing.map Prod.fst).Nodup →
    s.min_nterms < s'.min_nterms ∧ s'.backing.Sublist s.backing ∧
      (∀ e ∈ s'.backing, s'.min_nterms ≤ e.2.n_terms) ∧
      (∀ v ∈ s'.min_nterms_cached,
        (alookup v s'.backing).map expr_node.n_terms = some s'.min_nterms) ∧
      (s'.backing.map Prod.fst).Nodup ∧ s'.min_nterms_cached.Nodup ∧
      s'.min_nterms ≤ gsn ∧ s'.min_nterms_cached ≠ [] := by
  intro fuel
  induction fuel with
  | zero =>
    intro gsn s s' h
    exact absurd h (by simp [recache_go])
  | succ fuel ih =>
    intro gsn s s' h hcache hnodup
    rw [recache_go] at h
    split at h
    · exact absurd h (by simp)
    · rename_i s1 hstep
      obtain ⟨hm1, hsub1, hge1, hcache1, hnodup1, hcnodup1, hgsn1⟩ :=
        step_recache_ok hstep hcache hnodup
      split at h
      · rename_i hne
        have hs1 : s1 = s' := by
          cases h
          rfl
        subst hs1
        refine ⟨by omega, hsub1, hge1, hcache1, hnodup1, hcnodup1, hgsn1, ?_⟩
        intro hnil
        rw [hnil] at hne
        simp at hne
      · rename_i hne
        simp only [ne_eq, not_not, List.length_eq_zero] at hne
        obtain ⟨hlt, hsub, hge, hcache', hnodup', hcnodup', hgsn', hne'⟩ :=
          ih gsn s1 s' h hne hnodup1
        exact ⟨by omega, hsub.trans hsub1, hge, hcache', hnodup', hcnodup', hgsn', hne'⟩

theorem recache_ok {gsn : Nat} {s s' : list_open_t}
    (h : recache gsn s = .ok s') (hnodup : (s.backing.map Prod.fst).Nodup) :
    s.min_nterms < s'.min_nterms ∧ s'.backing.Sublist s.backing ∧
      (∀ e ∈ s'.backing, s'.min_nterms ≤ e.2.n_terms) ∧
      (∀ v ∈ s'.min_nterms_cached,
        (alookup v s'.backing).map expr_node.n_terms = some s'.min_nterms) ∧
      (s'.backing.map Prod.fst).Nodup ∧ s'.min_nterms_cached.Nodup ∧
      s'.min_nterms ≤ gsn ∧ s'.min_nterms_cached ≠ [] := by
  rw [recache] at h
  split at h
  case isTrue hpre =>
    have hcache : s.min_nterms_cached = [] := List.length_eq_zero.mp hpre.2
    exact recache_go_ok (gsn + 1) gsn s s' h hcache hnodup
  case isFalse => exact absurd h (by simp)

theorem pop_into_ok {gsn : Nat} {s s' : list_open_t} {v : Int} {nd : expr_node}
    (hI : OpenInv s) (h : pop_into gsn s = .ok (v, nd, s')) :
    OpenInv s' ∧ nd.n_terms = s'.min_nterms ∧ s.min_nterms ≤ s'.min_nterms ∧
      alookup v s.backing = some nd ∧ v ∉ s'.backing.map Prod.fst ∧
      s'.backing.Sublist s.backing ∧ s'.backing.length < s.backing.length := by
  obtain ⟨hI1, hI2, hI3, hI4⟩ := hI
  rw [pop_into] at h
  split at h
  case isTrue => exact absurd h (by simp)
  case isFalse hlen =>
    split at h
    · exact absurd h (by simp)
    · rename_i s1 hrec
      have hmain : (∀ e ∈ s1.backing, s1.min_nterms ≤ e.2.n_terms) ∧
          (∀ w ∈ s1.min_nterms_cached,
            (alookup w s1.backing).map expr_node.n_terms = some s1.min_nterms) ∧
          (s1.backing.map Prod.fst).Nodup ∧ s1.min_nterms_cached.Nodup ∧
          s.min_nterms ≤ s1.min_nterms ∧ s1.backing.Sublist s.backing := by
        by_cases hc : s.min_nterms_cached.length = 0
        · rw [if_pos hc] at hrec
          obtain ⟨hlt, hsub, hge, hcach, hnd, hcnd, _, _⟩ := recache_ok hrec hI3
          exact ⟨hge, hcach, hnd, hcnd, Nat.le_of_lt hlt, hsub⟩
        · rw [if_neg hc] at hrec
          have hs1 : s = s1 := by injection hrec
          subst hs1
          exact ⟨hI1, hI2, hI3, hI4, le_refl _, List.Sublist.refl _⟩
      obtain ⟨hge, hcach, hnd, hcnd, hmle, hsub⟩ := hmain
      split at h
      · exact absurd h (by simp)
      · rename_i w rest hc1
        split at h
        · exact absurd h (by simp)
        · rename_i nd1 hlook
          simp only [Except.ok.injEq, Prod.mk.injEq] at h
          obtain ⟨rfl, rfl, rfl⟩ := h
          have hwmemc : w ∈ s1.min_nterms_cached := by
            rw [hc1]
            exact List.mem_cons_self _ _
          have hwlev : nd1.n_terms = s1.min_nterms := by
            have hx := hcach w hwmemc
            rw [hlook, Option.map_some'] at hx
            injection hx
          have hcnd' : rest.Nodup ∧ w ∉ rest := by
            have hx := hcnd
            rw [hc1, List.nodup_cons] at hx
            exact ⟨hx.2, hx.1⟩
          have hvmem : (w, nd1) ∈ s1.backing := alookup_mem hlook
          have hvs : alookup w s.backing = some nd1 :=
            mem_alookup hI3 (hsub.subset hvmem)
          have hvkeys : w ∈ s1.backing.map Prod.fst :=
            List.mem_map_of_mem Prod.fst hvmem
          refine ⟨⟨?_, ?_, ?_, hcnd'.1⟩, hwlev, hmle, hvs, ?_, ?_, ?_⟩
          · intro e he
            exact hge e ((aerase_sublist w s1.backing).subset he)
          · intro u hu
            have hune : u ≠ w := fun huv => hcnd'.2 (huv ▸ hu)
            rw [alookup_aerase_ne hune]
            exact hcach u (by rw [hc1]; exact List.mem_cons_of_mem _ hu)
          · exact List.Nodup.sublist ((aerase_sublist w s1.backing).map Prod.fst) hnd
          · exact aerase_not_mem hnd
          · exact (aerase_sublist w s1.backing).trans hsub
          · have hlen1 : (aerase w s1.backing).length + 1 = s1.backing.length :=
              aerase_length hvkeys
            have hlen2 : s1.backing.length ≤ s.backing.length := hsub.length_le
            simp only [list_open_t.backing]
            omega

theorem discover_cases {val : Int} {nd : expr_node} {st st' : SState}
    (h : discover val nd st = .ok st') :
    (st' = st ∧ (alookup val st.list_closed ≠ none ∨ max_relevant ≤ |val| ∨
        st.goal_seen_n_terms ≤ nd.n_terms)) ∨
    (alookup val st.list_closed = none ∧ |val| < max_relevant ∧
      nd.n_terms < st.goal_seen_n_terms ∧
      ∃ opn', push val nd st.list_open = .ok opn' ∧
        ((val = goal ∧
            st' = { st with list_open := opn', goal_seen_n_terms := nd.n_terms,
                            reports := st.reports ++ [nd.n_terms] }) ∨
         (val ≠ goal ∧ st' = { st with list_open := opn' }))) := by
  rw [discover] at h
  split at h
  case isTrue hc =>
    cases h
    exact Or.inl ⟨rfl, Or.inl hc⟩
  case isFalse hc =>
    split at h
    case isTrue hm =>
      cases h
      exact Or.inl ⟨rfl, Or.inr (Or.inl hm)⟩
    case isFalse hm =>
      split at h
      case isTrue hg =>
        cases h
        exact Or.inl ⟨rfl, Or.inr (Or.inr hg)⟩
      case isFalse hg =>
        split at h
        · exact absurd h (by simp)
        · rename_i opn' hpush
          refine Or.inr ⟨not_not.mp hc, lt_of_not_le hm, lt_of_not_le hg, opn', hpush, ?_⟩
          split at h
          case isTrue hv =>
            cases h
            exact Or.inl ⟨hv, rfl⟩
          case isFalse hv =>
            cases h
            exact Or.inr ⟨hv, rfl⟩

theorem discover_preserves {val : Int} {nd : expr_node} {st st' : SState}
    (hInv : SInv st) (hok : node_ok st.list_closed val nd)
    (h : discover val nd st = .ok st') :
    SInv st' ∧ st'.list_closed = st.list_closed ∧
      st'.list_open.min_nterms = st.list_open.min_nterms := by
  obtain ⟨hO, hN, hC, hB, hD⟩ := hInv
  rcases discover_cases h with ⟨rfl, _⟩ | ⟨hcl, _, _, opn', hpush, hcase⟩
  · exact ⟨⟨hO, hN, hC, hB, hD⟩, rfl, rfl⟩
  · obtain ⟨hO', hmin', _, hentries, hlook⟩ := push_ok hO hpush
    have hInv' : OpenInv opn' ∧ (st.list_closed.map Prod.fst).Nodup ∧
        (∀ e ∈ st.list_closed, node_ok st.list_closed e.1 e.2) ∧
        (∀ e ∈ opn'.backing, node_ok st.list_closed e.1 e.2) ∧
        (∀ e ∈ st.list_closed, e.1 ∉ opn'.backing.map Prod.fst) := by
      refine ⟨hO', hN, hC, ?_, ?_⟩
      · intro e he
        rcases hentries e he with he' | he'
        · subst he'
          exact hok
        · exact hB e he'
      · intro e he
        have hne : e.1 ≠ val := by
          intro heq
          exact (alookup_eq_none.mp hcl) (heq ▸ List.mem_map_of_mem Prod.fst he)
        have hl := hlook e.1 hne
        have hnone : alookup e.1 st.list_open.backing = none :=
          alookup_eq_none.mpr (hD e he)
        rw [hnone] at hl
        exact alookup_eq_none.mp hl
    rcases hcase with ⟨_, rfl⟩ | ⟨_, rfl⟩
    · exact ⟨hInv', rfl, hmin'⟩
    · exact ⟨hInv', rfl, hmin'⟩

theorem discover_list_nil (st : SState) : discover_list [] st = .ok st := rfl

theorem discover_list_cons (c : Int × expr_node) (cs : List (Int × expr_node)) :
    discover_list (c :: cs) = fun st => discover c.1 c.2 st >>= discover_list cs := by
  funext st
  rw [discover_list]
  rcases discover c.1 c.2 st with e | st' <;> rfl

theorem discover_list_preserves : ∀ (cs : List (Int × expr_node)) (st st' : SState),
    SInv st → (∀ c ∈ cs, node_ok st.list_closed c.1 c.2) →
    discover_list cs st = .ok st' →
    SInv st' ∧ st'.list_closed = st.list_closed ∧
      st'.list_open.min_nterms = st.list_open.min_nterms := by
  intro cs
  induction cs with
  | nil =>
    intro st st' _ _ h
    rw [discover_list_nil] at h
    cases h
    exact ⟨by assumption, rfl, rfl⟩
  | cons c cs ih =>
    intro st st' hInv hok h
    rw [discover_list] at h
    split at h
    · exact absurd h (by simp)
    · rename_i st1 hd
      obtain ⟨hInv1, hcl1, hmin1⟩ :=
        discover_preserves hInv (hok c (List.mem_cons_self _ _)) hd
      obtain ⟨hInv', hcl', hmin'⟩ := ih st1 st' hInv1
        (fun c' hc' => hcl1 ▸ hok c' (List.mem_cons_of_mem _ hc')) h
      exact ⟨hInv', hcl'.trans hcl1, hmin'.trans hmin1⟩

theorem node_ok_bin {closed : List (Int × expr_node)} {v x y : Int} {n : Nat}
    {op : arith_op} {nx ny : expr_node} (hopn : op ≠ .OP_NONE)
    (hx : alookup x closed = some nx) (hy : alookup y closed = some ny)
    (hn : n = nx.n_terms + ny.n_terms) (h1 : 1 ≤ nx.n_terms)
    (hv : v = eval_op op x y)
    (hdiv : op = .OP_DIV → y ≠ 0 ∧ Int.tmod x y = 0) :
    node_ok closed v ⟨x, y, n, op⟩ := by
  refine ⟨by simp only; omega, fun hc => absurd hc hopn, fun _ => ⟨?_, hv, hdiv⟩⟩
  simp [hx, hy, Option.map₂, hn]

theorem candidates_node_ok {closed : List (Int × expr_node)} {a_val b_val : Int}
    {a b : expr_node} (ha : alookup a_val closed = some a)
    (hb : alookup b_val closed = some b) (ha1 : 1 ≤ a.n_terms) (hb1 : 1 ≤ b.n_terms) :
    ∀ c ∈ candidates a_val a b_val b, node_ok closed c.1 c.2 := by
  intro c hc
  simp only [candidates, List.mem_append] at hc
  rcases hc with (hc | hc) | hc
  · by_cases h1 : b_val ≠ 0 ∧ Int.tmod a_val b_val = 0
    · rw [if_pos h1] at hc
      simp only [List.mem_singleton] at hc
      subst hc
      exact node_ok_bin (by decide) ha hb rfl ha1 rfl (fun _ => h1)
    · rw [if_neg h1] at hc
      simp at hc
  · simp only [List.mem_cons, List.not_mem_nil, or_false] at hc
    rcases hc with hc | hc | hc <;> subst hc
    · exact node_ok_bin (by decide) ha hb rfl ha1 rfl (fun hx => absurd hx (by decide))
    · exact node_ok_bin (by decide) ha hb rfl ha1 rfl (fun hx => absurd hx (by decide))
    · exact node_ok_bin (by decide) ha hb rfl ha1 rfl (fun hx => absurd hx (by decide))
  · by_cases h2 : b_val ≠ a_val
    · rw [if_pos h2] at hc
      simp only [List.mem_append] at hc
      rcases hc with hc | hc
      · by_cases h3 : a_val ≠ 0 ∧ Int.tmod b_val a_val = 0
        · rw [if_pos h3] at hc
          simp only [List.mem_singleton] at hc
          subst hc
          exact node_ok_bin (by decide) hb ha (Nat.add_comm _ _) hb1 rfl (fun _ => h3)
        · rw [if_neg h3] at hc
          simp at hc
      · simp only [List.mem_singleton] at hc
        subst hc
        exact node_ok_bin (by decide) hb ha (Nat.add_comm _ _) hb1 rfl
          (fun hx => absurd hx (by decide))
    · rw [if_neg h2] at hc
      simp at hc

theorem discover_list_nil_fun :
    discover_list ([] : List (Int × expr_node)) = Except.ok := rfl

theorem except_bind_ok (x : Except Err SState) : (x >>= Except.ok) = x := by
  cases x <;> rfl

theorem generate_against_eq (a_val : Int) (a : expr_node) (b_val : Int) (b : expr_node)
    (st : SState) (h : 2 ≤ a.n_terms + b.n_terms) :
    generate_against a_val a b_val b st = discover_list (candidates a_val a b_val b) st := by
  simp only [generate_against, candidates]
  rw [if_pos h]
  by_cases h1 : b_val ≠ 0 ∧ Int.tmod a_val b_val = 0
  all_goals by_cases h2 : b_val ≠ a_val
  all_goals by_cases h3 : a_val ≠ 0 ∧ Int.tmod b_val a_val = 0
  all_goals first
  | (simp only [if_pos h1]; try simp only [if_pos h2]; try simp only [if_pos h3])
  | skip
  all_goals first
  | (simp only [if_neg h1]; try simp only [if_neg h3])
  | skip
  all_goals try simp only [if_pos h2]
  all_goals try simp only [if_neg h2]
  all_goals try simp only [if_pos h3]
  all_goals try simp only [if_neg h3]
  all_goals
    simp only [List.cons_append, List.nil_append, List.append_nil, List.singleton_append,
      discover_list_cons, discover_list_nil_fun, except_bind_ok]
  all_goals rfl

theorem generate_preserves {a_val b_val : Int} {a b : expr_node} {st st' : SState}
    (hInv : SInv st) (ha : alookup a_val st.list_closed = some a)
    (hb : alookup b_val st.list_closed = some b)
    (h : generate_against a_val a b_val b st = .ok st') :
    SInv st' ∧ st'.list_closed = st.list_closed ∧
      st'.list_open.min_nterms = st.list_open.min_nterms := by
  have ha1 : 1 ≤ a.n_terms := (hInv.2.2.1 (a_val, a) (alookup_mem ha)).1
  have hb1 : 1 ≤ b.n_terms := (hInv.2.2.1 (b_val, b) (alookup_mem hb)).1
  have h2 : 2 ≤ a.n_terms + b.n_terms := by omega
  rw [generate_against_eq a_val a b_val b st h2] at h
  exact discover_list_preserves _ _ _ hInv (candidates_node_ok ha hb ha1 hb1) h

theorem genAll_preserves : ∀ (peers : List (Int × expr_node)) (a_val : Int) (a : expr_node)
    (st st' : SState), SInv st →
    (∀ p ∈ peers, alookup p.1 st.list_closed = some p.2) →
    alookup a_val st.list_closed = some a →
    genAll a_val a peers st = .ok st' →
    SInv st' ∧ st'.list_closed = st.list_closed ∧
      st'.list_open.min_nterms = st.list_open.min_nterms := by
  intro peers
  induction peers with
  | nil =>
    intro a_val a st st' hInv _ _ h
    rw [genAll] at h
    cases h
    exact ⟨hInv, rfl, rfl⟩
  | cons p ps ih =>
    intro a_val a st st' hInv hpeers ha h
    rw [genAll] at h
    split at h
    · exact absurd h (by simp)
    · rename_i st1 hg
      obtain ⟨hInv1, hcl1, hmin1⟩ :=
        generate_preserves hInv ha (hpeers p (List.mem_cons_self _ _)) hg
      obtain ⟨hInv', hcl', hmin'⟩ := ih a_val a st1 st' hInv1
        (fun p' hp' => hcl1 ▸ hpeers p' (List.mem_cons_of_mem _ hp')) (hcl1 ▸ ha) h
      exact ⟨hInv', hcl'.trans hcl1, hmin'.trans hmin1⟩

theorem emplace_of_not_mem {val : Int} {nd : expr_node} {l : List (Int × expr_node)}
    (h : alookup val l = none) : emplace val nd l = l ++ [(val, nd)] := by
  simp [emplace, h]

theorem node_ok_append {closed : List (Int × expr_node)} {v : Int} {nd : expr_node}
    (e : Int × expr_node) (h : node_ok closed v nd) :
    node_ok (closed ++ [e]) v nd := by
  obtain ⟨h1, h2, h3⟩ := h
  refine ⟨h1, h2, fun hop => ?_⟩
  obtain ⟨hm, hv, hd⟩ := h3 hop
  refine ⟨?_, hv, hd⟩
  rcases hl : alookup nd.val_left closed with _ | nl
  · rw [hl] at hm
    simp [Option.map₂] at hm
  · rcases hr : alookup nd.val_right closed with _ | nr
    · rw [hr] at hm
      simp [Option.map₂] at hm
    · rw [hl, hr] at hm
      rw [alookup_append_some hl, alookup_append_some hr]
      exact hm

theorem loop_iter_preserves {st st' : SState} {nd : expr_node}
    (hInv : SInv st) (h : loop_iter st = .ok (.step st' nd)) :
    SInv st' := by
  obtain ⟨hO, hN, hC, hB, hD⟩ := hInv
  rw [loop_iter] at h
  split at h
  case isTrue => exact absurd h (by simp)
  case isFalse hne =>
    split at h
    · exact absurd h (by simp)
    · rename_i val nd0 opn' hpop
      obtain ⟨hO', hlev, hmle, hlook, hnotin, hsub, hlen⟩ := pop_into_ok hO hpop
      have hvalnotcl : alookup val st.list_closed = none := by
        rcases hcl : alookup val st.list_closed with _ | x
        · rfl
        · exact absurd (List.mem_map_of_mem Prod.fst (alookup_mem hlook))
            (hD (val, x) (alookup_mem hcl))
      have hemp : emplace val nd0 st.list_closed = st.list_closed ++ [(val, nd0)] :=
        emplace_of_not_mem hvalnotcl
      dsimp only at h
      rw [hemp] at h
      split at h
      case isTrue => exact absurd h (by simp)
      case isFalse hvg =>
        split at h
        · exact absurd h (by simp)
        · rename_i st2 hgen
          have hndok : node_ok st.list_closed val nd0 :=
            hB (val, nd0) (alookup_mem hlook)
          have hclosed' : ∀ e ∈ st.list_closed ++ [(val, nd0)],
              node_ok (st.list_closed ++ [(val, nd0)]) e.1 e.2 := by
            intro e he
            rcases List.mem_append.mp he with he | he
            · exact node_ok_append _ (hC e he)
            · simp only [List.mem_singleton] at he
              subst he
              exact node_ok_append _ hndok
          have hnodup' : ((st.list_closed ++ [(val, nd0)]).map Prod.fst).Nodup := by
            simp only [List.map_append, List.map_cons, List.map_nil]
            rw [List.nodup_append]
            refine ⟨hN, List.nodup_singleton _, ?_⟩
            simpa using alookup_eq_none.mp hvalnotcl
          have hInvMid : SInv { list_closed := st.list_closed ++ [(val, nd0)],
                                list_open := opn',
                                goal_seen_n_terms := st.goal_seen_n_terms,
                                reports := st.reports } := by
            refine ⟨hO', hnodup', hclosed', ?_, ?_⟩
            · intro e he
              exact node_ok_append _ (hB e (hsub.subset he))
            · intro e he
              rcases List.mem_append.mp he with he | he
              · intro hmem
                exact hD e he (((hsub.map Prod.fst).subset) hmem)
              · simp only [List.mem_singleton] at he
                subst he
                exact hnotin
          have hpeers : ∀ p ∈ st.list_closed ++ [(val, nd0)],
              alookup p.1 (st.list_closed ++ [(val, nd0)]) = some p.2 :=
            fun p hp => mem_alookup hnodup' hp
          have ha : alookup val (st.list_closed ++ [(val, nd0)]) = some nd0 :=
            mem_alookup hnodup'
              (List.mem_append.mpr (Or.inr (List.mem_singleton.mpr rfl)))
          obtain ⟨hInv', _, _⟩ := genAll_preserves _ val nd0 _ st2 hInvMid hpeers ha hgen
          have hst2 : st2 = st' ∧ nd0 = nd := by
            simp only [Except.ok.injEq, IterRes.step.injEq] at h
            exact ⟨h.1, h.2⟩
          obtain ⟨rfl, rfl⟩ := hst2
          exact hInv'

theorem run_loop_preserves : ∀ (f : Nat) (st st' : SState) (nd : expr_node),
    SInv st → run_loop f st = .finished st' nd → SInv st' := by
  intro f
  induction f with
  | zero =>
    intro st st' nd _ h
    exact absurd h (by simp [run_loop])
  | succ f ih =>
    intro st st' nd hInv h
    rw [run_loop] at h
    split at h
    · exact absurd h (by simp)
    · exact absurd h (by simp)
    · rename_i st1 nd1 hiter
      split at h
      · exact ih st1 st' nd (loop_iter_preserves hInv hiter) h
      · have : st1 = st' ∧ nd1 = nd := by
          simp only [RunRes.finished.injEq] at h
          exact h
        obtain ⟨rfl, rfl⟩ := this
        exact loop_iter_preserves hInv hiter

theorem init_eq : init? = .ok init_state := by rfl

theorem SInv_init : SInv init_state := by decide

theorem Reachable_SInv : ∀ st, Reachable st → SInv st := by
  intro st h
  induction h with
  | init st hst =>
    rw [init_eq] at hst
    have : init_state = st := by
      simp only [Except.ok.injEq] at hst
      exact hst
    exact this ▸ SInv_init
  | step st st' nd _ hiter ih =>
    exact loop_iter_preserves ih hiter

theorem lookup_best_node_ok {st : SState} {v : Int} {nd : expr_node}
    (hInv : SInv st) (h : lookup_best_known st v = some nd) :
    node_ok st.list_closed v nd := by
  rw [lookup_best_known] at h
  rcases hcl : alookup v st.list_closed with _ | x
  · rw [hcl] at h
    exact hInv.2.2.2.1 (v, nd) (alookup_mem h)
  · rw [hcl] at h
    have hx : x = nd := by injection h
    subst hx
    exact hInv.2.2.1 (v, x) (alookup_mem hcl)

theorem lookup_best_closed {st : SState} {v : Int} {nd : expr_node}
    (h : alookup v st.list_closed = some nd) : lookup_best_known st v = some nd := by
  rw [lookup_best_known, h]

theorem render_tree_sound (st : SState) (hInv : SInv st) :
    ∀ (n : Nat) (v : Int) (nd : expr_node), lookup_best_known st v = some nd →
    nd.n_terms ≤ n → ∃ t, render_tree st n v = some t ∧ aexp.eval t = v := by
  intro n
  induction n using Nat.strong_induction_on with
  | _ n ih =>
    intro v nd hlook hle
    have hok : node_ok st.list_closed v nd := lookup_best_node_ok hInv hlook
    rcases n with _ | n'
    · have := hok.1
      omega
    · by_cases hop : nd.op = .OP_NONE
      · refine ⟨.lit v, ?_, rfl⟩
        simp [render_tree, hlook, hop]
      · obtain ⟨hm, hv, _⟩ := hok.2.2 hop
        rcases hl : alookup nd.val_left st.list_closed with _ | nl
        · rw [hl] at hm
          simp [Option.map₂] at hm
        · rcases hr : alookup nd.val_right st.list_closed with _ | nr
          · rw [hr] at hm
            simp [Option.map₂] at hm
          · rw [hl, hr] at hm
            simp only [Option.map_some', Option.map₂] at hm
            have hsum : nl.n_terms + nr.n_terms = nd.n_terms := by
              injection hm
            have hnl1 : 1 ≤ nl.n_terms :=
              (hInv.2.2.1 (nd.val_left, nl) (alookup_mem hl)).1
            have hnr1 : 1 ≤ nr.n_terms :=
              (hInv.2.2.1 (nd.val_right, nr) (alookup_mem hr)).1
            obtain ⟨tl, htl, hevl⟩ := ih n' (by omega) nd.val_left nl
              (lookup_best_closed hl) (by omega)
            obtain ⟨tr, htr, hevr⟩ := ih n' (by omega) nd.val_right nr
              (lookup_best_closed hr) (by omega)
            refine ⟨.bin nd.op tl tr, ?_, ?_⟩
            · simp [render_tree, hlook, hop, htl, htr]
            · simp only [aexp.eval, hevl, hevr]
              exact hv.symm

theorem runF_mono : ∀ (ops : List FOp) (s s' : list_open_t) (tr : List Nat),
    OpenInv s → runF ops s = .ok (s', tr) →
    OpenInv s' ∧ s.min_nterms ≤ s'.min_nterms ∧ (∀ c ∈ tr, s.min_nterms ≤ c) ∧
      tr.Chain' (· ≤ ·) := by
  intro ops
  induction ops with
  | nil =>
    intro s s' tr hI h
    rw [runF] at h
    simp only [Except.ok.injEq, Prod.mk.injEq] at h
    obtain ⟨rfl, rfl⟩ := h
    exact ⟨hI, le_refl _, by simp, by simp⟩
  | cons op ops ih =>
    intro s s' tr hI h
    rcases op with ⟨v, nd⟩ | gsn
    · rw [runF] at h
      split at h
      · exact absurd h (by simp)
      · rename_i s1 hp
        obtain ⟨hI1, hmin1, _, _, _⟩ := push_ok hI hp
        obtain ⟨hI', hle', hall', hch'⟩ := ih s1 s' tr hI1 h
        exact ⟨hI', hmin1 ▸ hle', fun c hc => hmin1 ▸ hall' c hc, hch'⟩
    · rw [runF] at h
      split at h
      · exact absurd h (by simp)
      · rename_i x v1 nd1 s1 hp
        split at h
        · exact absurd h (by simp)
        · rename_i y s2 tr1 hrest
          simp only [Except.ok.injEq, Prod.mk.injEq] at h
          obtain ⟨rfl, rfl⟩ := h
          obtain ⟨hI1, hlev1, hle1, _, _, _, _⟩ := pop_into_ok hI hp
          obtain ⟨hI', hle', hall', hch'⟩ := ih s1 s2 tr1 hI1 hrest
          refine ⟨hI', le_trans (hlev1 ▸ hle1) (hlev1 ▸ hle'), ?_, ?_⟩
          · intro c hc
            rcases List.mem_cons.mp hc with hc | hc
            · subst hc
              exact hlev1 ▸ hle1
            · exact le_trans (hlev1 ▸ hle1) (hall' c hc)
          · rw [List.chain'_cons']
            refine ⟨?_, hch'⟩
            intro b hb
            have hbmem : b ∈ tr1 := List.mem_of_mem_head? hb
            exact hlev1 ▸ hall' b hbmem

/-- Claim C2: within any single run, the costs (`n_terms`) of the nodes
returned by successive `pop_into` calls on the frontier form a non-decreasing
sequence.  Stated over an arbitrary interleaving of `push` and `pop_into`
calls (which subsumes the calls the driver makes) starting from any frontier
satisfying the structure's invariant. -/
theorem c2_pop_monotone (ops : List FOp) (s s' : list_open_t) (tr : List Nat)
    (hI : OpenInv s) (h : runF ops s = .ok (s', tr)) : tr.Chain' (· ≤ ·) :=
  (runF_mono ops s s' tr hI h).2.2.2

/-- Witness for C2: seeding the frontier with 69 and 420 and popping twice
yields the trace [1, 1], which is non-decreasing. -/
theorem c2_pop_monotone_witness : List.Chain' (· ≤ ·) [1, 1] :=
  c2_pop_monotone [.fpop 2027, .fpop 2027]
    ⟨[], 0, [(69, ⟨69, 69, 1, .OP_NONE⟩), (420, ⟨420, 420, 1, .OP_NONE⟩)]⟩
    ⟨[], 1, []⟩ [1, 1] (by decide) (by rfl)

/-- Claim C3, amended: a successful `pop_into` removes the entry it returns
(the erasure pass may additionally prune entries that can no longer improve
the best known answer) and its node's `n_terms` is minimal among the entries
present at return; a call on an empty frontier fails with the distinguished
empty-frontier condition.  (A call on a nonempty frontier can instead hit an
assertion when every entry is prunable — see the counterexample.) -/
theorem c3_pop_contract (gsn : Nat) (s : list_open_t) :
    (s.backing = [] → pop_into gsn s = .error .emptyFrontier) ∧
    (∀ v nd s', OpenInv s → pop_into gsn s = .ok (v, nd, s') →
      alookup v s.backing = some nd ∧ alookup v s'.backing = none ∧
      s'.backing.length < s.backing.length ∧
      ∀ e ∈ s'.backing, nd.n_terms ≤ e.2.n_terms) := by
  constructor
  · intro h
    rw [pop_into, if_pos (by simp [h])]
  · intro v nd s' hI hok
    obtain ⟨hO', hlev, _, hlook, hnot, _, hlen⟩ := pop_into_ok hI hok
    exact ⟨hlook, alookup_eq_none.mpr hnot, hlen, fun e he => hlev ▸ hO'.1 e he⟩

/-- Counterexample for C3 as frozen: a frontier with one (perfectly valid)
entry whose cost has reached `goal_seen_n_terms` makes `pop_into` abort via
the `min_nterms <= goal_seen_n_terms` assertion instead of returning a node,
although the frontier is not empty. -/
theorem c3_pop_counterexample :
    decide (OpenInv (⟨[], 0, [(5, ⟨5, 5, 10, .OP_NONE⟩)]⟩ : list_open_t)) = true ∧
    (⟨[], 0, [(5, ⟨5, 5, 10, .OP_NONE⟩)]⟩ : list_open_t).backing.length = 1 ∧
    pop_into 3 ⟨[], 0, [(5, ⟨5, 5, 10, .OP_NONE⟩)]⟩ = .error .assertFail :=
  ⟨by decide, rfl, by rfl⟩

/-- Witness for C3: the empty frontier fails with the empty-frontier
condition, and a successful pop on a one-entry frontier returns that entry,
removes it, and it is minimal among the (no) remaining entries. -/
theorem c3_pop_contract_witness :
    pop_into 10 (⟨[], 0, []⟩ : list_open_t) = .error .emptyFrontier ∧
    alookup 5 [(5, ⟨5, 5, 2, .OP_NONE⟩), (7, ⟨7, 7, 3, .OP_NONE⟩)]
      = some ⟨5, 5, 2, .OP_NONE⟩ ∧
    alookup 5 [(7, ⟨7, 7, 3, .OP_NONE⟩)] = none ∧
    (1 : Nat) < 2 ∧ (2 : Nat) ≤ 3 :=
  ⟨(c3_pop_contract 10 ⟨[], 0, []⟩).1 rfl,
   ((c3_pop_contract 10 ⟨[], 0, [(5, ⟨5, 5, 2, .OP_NONE⟩), (7, ⟨7, 7, 3, .OP_NONE⟩)]⟩).2
       5 ⟨5, 5, 2, .OP_NONE⟩ ⟨[], 2, [(7, ⟨7, 7, 3, .OP_NONE⟩)]⟩
       (by decide) (by rfl)).1,
   ((c3_pop_contract 10 ⟨[], 0, [(5, ⟨5, 5, 2, .OP_NONE⟩), (7, ⟨7, 7, 3, .OP_NONE⟩)]⟩).2
       5 ⟨5, 5, 2, .OP_NONE⟩ ⟨[], 2, [(7, ⟨7, 7, 3, .OP_NONE⟩)]⟩
       (by decide) (by rfl)).2.1,
   ((c3_pop_contract 10 ⟨[], 0, [(5, ⟨5, 5, 2, .OP_NONE⟩), (7, ⟨7, 7, 3, .OP_NONE⟩)]⟩).2
       5 ⟨5, 5, 2, .OP_NONE⟩ ⟨[], 2, [(7, ⟨7, 7, 3, .OP_NONE⟩)]⟩
       (by decide) (by rfl)).2.2.1,
   ((c3_pop_contract 10 ⟨[], 0, [(5, ⟨5, 5, 2, .OP_NONE⟩), (7, ⟨7, 7, 3, .OP_NONE⟩)]⟩).2
       5 ⟨5, 5, 2, .OP_NONE⟩ ⟨[], 2, [(7, ⟨7, 7, 3, .OP_NONE⟩)]⟩
       (by decide) (by rfl)).2.2.2 (7, ⟨7, 7, 3, .OP_NONE⟩) (by decide)⟩

/-- Claim C4: under the two asserted preconditions, `push` stores the new
node when no entry for the value exists, replaces a strictly worse existing
entry, and silently leaves the frontier unchanged when the existing entry is
at least as good. -/
theorem c4_push_contract (s : list_open_t) (val : Int) (nd : expr_node)
    (h1 : 1 ≤ nd.n_terms) (h2 : s.min_nterms < nd.n_terms) :
    ∃ s', push val nd s = .ok s' ∧
      (alookup val s.backing = none → alookup val s'.backing = some nd) ∧
      (∀ old, alookup val s.backing = some old → nd.n_terms < old.n_terms →
        alookup val s'.backing = some nd) ∧
      (∀ old, alookup val s.backing = some old → old.n_terms ≤ nd.n_terms → s' = s) := by
  refine ⟨{ s with backing := push_backing val nd s.backing }, ?_, ?_, ?_, ?_⟩
  · rw [push, if_pos ⟨h1, h2⟩]
  · intro hl
    show alookup val (push_backing val nd s.backing) = some nd
    rw [push_backing_none hl, alookup_append_none hl, alookup_cons]
    simp
  · intro old hl himp
    show alookup val (push_backing val nd s.backing) = some nd
    rw [push_backing_improve hl himp]
    exact alookup_areplace_self nd (List.mem_map_of_mem Prod.fst (alookup_mem hl))
  · intro old hl hle
    have hnot : ¬nd.n_terms < old.n_terms := by omega
    show ({ s with backing := push_backing val nd s.backing } : list_open_t) = s
    rw [push_backing_keep hl hnot]

/-- Witness for C4 at a frontier that already holds a strictly worse entry
for the value: the preconditions hold and `push` replaces that entry with the
new node. -/
theorem c4_push_contract_witness :
    ∃ s', push 3 ⟨3, 5, 2, .OP_MINUS⟩ (⟨[], 1, [(3, ⟨3, 3, 4, .OP_NONE⟩)]⟩ : list_open_t)
        = .ok s' ∧ alookup 3 s'.backing = some ⟨3, 5, 2, .OP_MINUS⟩ :=
  match c4_push_contract ⟨[], 1, [(3, ⟨3, 3, 4, .OP_NONE⟩)]⟩ 3 ⟨3, 5, 2, .OP_MINUS⟩
      (by decide) (by decide) with
  | ⟨s', hp, _, himp, _⟩ => ⟨s', hp, himp ⟨3, 3, 4, .OP_NONE⟩ (by rfl) (by decide)⟩

/-- Claim C5: `generate_against` offers to `discover` exactly the candidates
written out literally in `candidates` — quotient (only when the divisor is
nonzero and divides exactly), difference, product and sum over
`(a_val, b_val)`, plus, only when the two values differ, the reversed
quotient (under the mirrored exactness condition) and reversed difference
over `(b_val, a_val)`; reversed sums and products are never offered, skipped
divisions produce no candidate and no error, and every candidate carries cost
`a.n_terms + b.n_terms` and records its operand pair and operator. -/
theorem c5_generate_exact (a_val : Int) (a : expr_node) (b_val : Int) (b : expr_node)
    (st : SState) (h : 2 ≤ a.n_terms + b.n_terms) :
    generate_against a_val a b_val b st = discover_list (candidates a_val a b_val b) st ∧
    ∀ c ∈ candidates a_val a b_val b, c.2.n_terms = a.n_terms + b.n_terms := by
  refine ⟨generate_against_eq a_val a b_val b st h, ?_⟩
  intro c hc
  simp only [candidates, List.mem_append] at hc
  rcases hc with (hc | hc) | hc
  · split_ifs at hc
    · simp only [List.mem_singleton] at hc
      subst hc
      rfl
    · simp at hc
  · simp only [List.mem_cons, List.not_mem_nil, or_false] at hc
    rcases hc with hc | hc | hc <;> subst hc <;> rfl
  · split_ifs at hc
    · simp only [List.mem_append, List.mem_singleton, List.mem_cons, List.not_mem_nil,
        or_false] at hc
      rcases hc with hc | hc <;> subst hc <;> rfl
    · simp only [List.nil_append, List.mem_singleton] at hc
      subst hc
      rfl
    · simp at hc

/-- Witness for C5 at the two seed nodes (69 and 420): the expansion equals
the explicit candidate list and every candidate costs 1 + 1. -/
theorem c5_generate_exact_witness :
    generate_against 69 ⟨69, 69, 1, .OP_NONE⟩ 420 ⟨420, 420, 1, .OP_NONE⟩ init_state
        = discover_list (candidates 69 ⟨69, 69, 1, .OP_NONE⟩ 420 ⟨420, 420, 1, .OP_NONE⟩)
            init_state ∧
    ((69 : Int) - 420, (⟨69, 420, 1 + 1, .OP_MINUS⟩ : expr_node)).2.n_terms = 1 + 1 :=
  ⟨(c5_generate_exact 69 ⟨69, 69, 1, .OP_NONE⟩ 420 ⟨420, 420, 1, .OP_NONE⟩ init_state
      (by decide)).1,
   (c5_generate_exact 69 ⟨69, 69, 1, .OP_NONE⟩ 420 ⟨420, 420, 1, .OP_NONE⟩ init_state
      (by decide)).2 (69 - 420, ⟨69, 420, 1 + 1, .OP_MINUS⟩) (by decide)⟩

/-- Claim C6: a candidate is pushed into the frontier only when its value is
not yet closed, its absolute value is strictly below `max_relevant` (there is
no lower bound), and its cost is strictly below the best cost at which the
goal was reached; a candidate failing any of the three conditions leaves the
entire search state (frontier and closed set included) unchanged. -/
theorem c6_discover_filter (st : SState) (val : Int) (nd : expr_node) :
    (¬(alookup val st.list_closed = none ∧ |val| < max_relevant ∧
        nd.n_terms < st.goal_seen_n_terms) → discover val nd st = .ok st) ∧
    (∀ st', discover val nd st = .ok st' →
      st'.list_open.backing ≠ st.list_open.backing →
      alookup val st.list_closed = none ∧ |val| < max_relevant ∧
      nd.n_terms < st.goal_seen_n_terms) := by
  constructor
  · intro hn
    rw [discover]
    by_cases hc1 : alookup val st.list_closed ≠ none
    · rw [if_pos hc1]
    · rw [if_neg hc1]
      by_cases hc2 : max_relevant ≤ |val|
      · rw [if_pos hc2]
      · rw [if_neg hc2]
        have hc3 : st.goal_seen_n_terms ≤ nd.n_terms := by
          by_contra hlt
          exact hn ⟨not_not.mp hc1, lt_of_not_le hc2, lt_of_not_le hlt⟩
        rw [if_pos hc3]
  · intro st' h hne
    rcases discover_cases h with ⟨rfl, _⟩ | ⟨hA, hB, hC, _⟩
    · exact absurd rfl hne
    · exact ⟨hA, hB, hC⟩

/-- Witness for C6: a candidate whose cost (3000) is not below the initial
best goal cost (2027) is dropped silently, leaving the state unchanged; and a
candidate that is admitted (the push changes the frontier) satisfies all
three conditions. -/
theorem c6_discover_filter_witness :
    discover 69 ⟨69, 69, 3000, .OP_NONE⟩ init_state = .ok init_state ∧
    (alookup 5 init_state.list_closed = none ∧ |(5 : Int)| < max_relevant ∧
      (1 : Nat) < init_state.goal_seen_n_terms) :=
  ⟨(c6_discover_filter init_state 69 ⟨69, 69, 3000, .OP_NONE⟩).1 (by decide),
   (c6_discover_filter init_state 5 ⟨5, 5, 1, .OP_NONE⟩).2
     { init_state with list_open := ⟨[], 0,
         [(69, ⟨69, 69, 1, .OP_NONE⟩), (420, ⟨420, 420, 1, .OP_NONE⟩),
          (5, ⟨5, 5, 1, .OP_NONE⟩)]⟩ }
     (by rfl) (by decide)⟩

/-- Claim C7: in every state the driver can reach (the seeded initial state
and anything obtainable from it by loop bodies), the value sets of the open
frontier and the closed list are disjoint. -/
theorem c7_disjoint (st : SState) (h : Reachable st) (v : Int) :
    alookup v st.list_closed = none ∨ alookup v st.list_open.backing = none := by
  have hInv := Reachable_SInv st h
  rcases hcl : alookup v st.list_closed with _ | x
  · exact Or.inl rfl
  · exact Or.inr (alookup_eq_none.mpr (hInv.2.2.2.2 (v, x) (alookup_mem hcl)))

/-- Witness for C7 at the value 420 in the initial state, which is reachable
by the seed phase. -/
theorem c7_disjoint_witness :
    alookup 420 init_state.list_closed = none ∨
      alookup 420 init_state.list_open.backing = none :=
  c7_disjoint init_state (Reachable.init init_state init_eq) 420

/-- Claim C8, amended: whenever a candidate whose value equals the goal is
offered to `discover` and it passes the admission filter — in particular its
cost is strictly below the current best-known goal cost (the goal's absolute
value is always below the bound, and the frontier's push preconditions hold
as they do for every driver-generated candidate) — the best-known goal cost
is updated to the candidate's cost and the discovery is reported, regardless
of whether `push` keeps or silently discards the node. -/
theorem c8_goal_discovery (st : SState) (nd : expr_node)
    (hcl : alookup goal st.list_closed = none)
    (hlt : nd.n_terms < st.goal_seen_n_terms)
    (h1 : 1 ≤ nd.n_terms) (hmin : st.list_open.min_nterms < nd.n_terms) :
    discover goal nd st =
      .ok { st with
            list_open := { st.list_open with
                           backing := push_backing goal nd st.list_open.backing },
            goal_seen_n_terms := nd.n_terms,
            reports := st.reports ++ [nd.n_terms] } := by
  have hpush : push goal nd st.list_open =
      .ok { st.list_open with backing := push_backing goal nd st.list_open.backing } := by
    rw [push, if_pos ⟨h1, hmin⟩]
  rw [discover, if_neg (by simp [hcl]), if_neg (by decide), if_neg (by omega), hpush]
  dsimp only
  rw [if_pos rfl]

/-- Counterexample for C8 as frozen: a candidate whose value equals the goal
but whose cost (5) is not below the current best-known goal cost (2) is
dropped by the admission filter — the best-known cost is not updated to 5 and
nothing is reported, contradicting the claim's unconditional update. -/
theorem c8_goal_discovery_counterexample :
    discover goal ⟨69, 420, 5, .OP_PLUS⟩
        { list_closed := [], list_open := ⟨[], 0, []⟩, goal_seen_n_terms := 2,
          reports := [] } =
      .ok { list_closed := [], list_open := ⟨[], 0, []⟩, goal_seen_n_terms := 2,
            reports := [] } ∧
    decide ((2 : Nat) = (5 : Nat)) = false ∧
    (({ list_closed := [], list_open := ⟨[], 0, []⟩, goal_seen_n_terms := 2,
        reports := [] } : SState)).reports = [] :=
  ⟨by rfl, by decide, rfl⟩

/-- Witness for C8: a goal-valued candidate of cost 3 against best-known cost
2027 updates the best-known cost to 3 and appends the report, even though in
this witness the push inserts the node. -/
theorem c8_goal_discovery_witness :
    discover goal ⟨69, 420, 3, .OP_PLUS⟩ init_state =
      .ok { init_state with
            list_open := { init_state.list_open with
                           backing := push_backing goal ⟨69, 420, 3, .OP_PLUS⟩
                             init_state.list_open.backing },
            goal_seen_n_terms := 3,
            reports := init_state.reports ++ [3] } :=
  c8_goal_discovery init_state ⟨69, 420, 3, .OP_PLUS⟩ (by decide) (by decide)
    (by decide) (by decide)

/-- Claim C9: when the driver loop ends because the frontier emptied, `main`
prints the can't-be-reached message and exits with code 1 (a reported
failure, not a crash); when the loop ends normally and the final rendering
succeeds, `main` exits with code 0. -/
theorem c9_exit_codes (st0 : SState) (fuel : Nat) :
    (∀ st, run_loop fuel st0 = .exhausted st → main_run st0 fuel = .done 1 true none) ∧
    (∀ st nd t, run_loop fuel st0 = .finished st nd →
      render_tree st (st.goal_seen_n_terms + 1) goal = some t →
      main_run st0 fuel = .done 0 false (some t)) := by
  constructor
  · intro st h
    rw [main_run, h]
  · intro st nd t h ht
    rw [main_run, h]
    dsimp only
    rw [ht]

/-- Witness for C9: from a state with an empty frontier the run is exhausted
and `main` returns code 1 with the failure message; from a small state whose
goal is already recorded the loop finishes and `main` returns code 0 with the
printed expression. -/
theorem c9_exit_codes_witness :
    main_run { list_closed := [], list_open := ⟨[], 0, []⟩, goal_seen_n_terms := 2027,
               reports := [] } 1 = .done 1 true none ∧
    main_run { list_closed := [(2017, ⟨2017, 2017, 1, .OP_NONE⟩)],
               list_open := ⟨[], 0, [(5, ⟨5, 5, 1, .OP_NONE⟩)]⟩,
               goal_seen_n_terms := 2, reports := [] } 1
      = .done 0 false (some (.lit 2017)) :=
  ⟨(c9_exit_codes { list_closed := [], list_open := ⟨[], 0, []⟩,
                    goal_seen_n_terms := 2027, reports := [] } 1).1
      { list_closed := [], list_open := ⟨[], 0, []⟩, goal_seen_n_terms := 2027,
        reports := [] } (by rfl),
   (c9_exit_codes { list_closed := [(2017, ⟨2017, 2017, 1, .OP_NONE⟩)],
                    list_open := ⟨[], 0, [(5, ⟨5, 5, 1, .OP_NONE⟩)]⟩,
                    goal_seen_n_terms := 2, reports := [] } 1).2
      { list_closed := [(2017, ⟨2017, 2017, 1, .OP_NONE⟩), (5, ⟨5, 5, 1, .OP_NONE⟩)],
        list_open := ⟨[], 1, []⟩, goal_seen_n_terms := 2, reports := [] }
      ⟨5, 5, 1, .OP_NONE⟩ (.lit 2017) (by rfl) (by rfl)⟩

/-- Claim C1: for every terminating run of the driver loop from a state
satisfying the search invariant (the program's seeded initial state does, see
`SInv_init`), if the goal has been reached — `lookup_best_known` finds a node
for the goal, which is exactly what the final `print_expr(goal)` consults —
then the rendered expression for the goal evaluates, under exact integer
arithmetic, to the goal value itself. -/
theorem c1_soundness (st0 : SState) (f : Nat) (st : SState) (nd g : expr_node)
    (hInv : SInv st0) (hrun : run_loop f st0 = .finished st nd)
    (hgoal : lookup_best_known st goal = some g) :
    ∃ t, render_tree st g.n_terms goal = some t ∧ aexp.eval t = goal :=
  render_tree_sound st (run_loop_preserves f st0 st nd hInv hrun) g.n_terms goal g
    hgoal (le_refl _)

/-- Witness for C1 on a concrete terminating run that has reached the goal:
the rendered expression exists and evaluates to the goal. -/
theorem c1_soundness_witness :
    ∃ t, render_tree
        { list_closed := [(2017, ⟨2017, 2017, 1, .OP_NONE⟩), (5, ⟨5, 5, 1, .OP_NONE⟩)],
          list_open := ⟨[], 1, []⟩, goal_seen_n_terms := 2, reports := [] }
        1 goal = some t ∧ aexp.eval t = goal :=
  c1_soundness
    { list_closed := [(2017, ⟨2017, 2017, 1, .OP_NONE⟩)],
      list_open := ⟨[], 0, [(5, ⟨5, 5, 1, .OP_NONE⟩)]⟩,
      goal_seen_n_terms := 2, reports := [] } 1
    { list_closed := [(2017, ⟨2017, 2017, 1, .OP_NONE⟩), (5, ⟨5, 5, 1, .OP_NONE⟩)],
      list_open := ⟨[], 1, []⟩, goal_seen_n_terms := 2, reports := [] }
    ⟨5, 5, 1, .OP_NONE⟩ ⟨2017, 2017, 1, .OP_NONE⟩ (by decide) (by rfl) (by rfl)
